import Mathlib

/-!
Shallow embedding of the trending-hashtags analyser
(`trend_tracker_local.py`, `mapper.py`).

Modelling conventions:
* Python floats are modelled by `ℚ`; float rounding is not modelled.
* `math.log` is an abstract parameter `log : ℚ → ℚ` of the scorer; the only
  fact about it ever needed is `log 1 = 0`.
* Python `datetime` instants are modelled by their proleptic-Gregorian
  rata-die ordinal (`datetime.toordinal`), a `Nat`; `datetime.min` is
  ordinal `1` (0001-01-01, a Monday).
* Python / pandas string comparison is lexicographic on Unicode code
  points; it is modelled by `charListLt` / `strLe` on `String.data`.
* `pandas.sort_values` is modelled as a stable sort (`sortLe`).
* Operations that can raise (`ZeroDivisionError` in the growth division)
  return `Option`; `none` models an uncaught exception.
-/

namespace TrendTracker

/-! ### Calendar arithmetic (proleptic Gregorian, as Python `datetime`) -/

/-- Gregorian leap year, as `calendar.isleap` / `datetime`. -/
def isLeap (y : Nat) : Bool := y % 4 == 0 && (y % 100 != 0 || y % 400 == 0)

/-- Number of days of month `m` of year `y` (months `1..12`). -/
def daysInMonth (y m : Nat) : Nat :=
  if m = 2 then (if isLeap y then 29 else 28)
  else if m = 4 ∨ m = 6 ∨ m = 9 ∨ m = 11 then 30
  else 31

/-- Days of year `y` strictly before month `m` (months `1..12`). -/
def daysBeforeMonth (y m : Nat) : Nat :=
  (match m with
   | 1 => 0 | 2 => 31 | 3 => 59 | 4 => 90 | 5 => 120 | 6 => 151
   | 7 => 181 | 8 => 212 | 9 => 243 | 10 => 273 | 11 => 304 | _ => 334)
  + (if 3 ≤ m ∧ isLeap y then 1 else 0)

/-- `datetime.date(y, m, d).toordinal()`: rata-die day number, with
0001-01-01 being day 1. -/
def rataDie (y m d : Nat) : Nat :=
  365 * (y - 1) + ((y - 1) / 4 - (y - 1) / 100) + (y - 1) / 400
    + daysBeforeMonth y m + d

/-- A date triple that `datetime` accepts (`MINYEAR = 1`, `MAXYEAR = 9999`). -/
def validDate (y m d : Nat) : Prop :=
  1 ≤ y ∧ y ≤ 9999 ∧ 1 ≤ m ∧ m ≤ 12 ∧ 1 ≤ d ∧ d ≤ daysInMonth y m

instance (y m d : Nat) : Decidable (validDate y m d) := by
  unfold validDate; infer_instance

/-- Ordinal of the Monday starting ISO week 1 of year `y`
(Python `_isoweek1monday`): back up from Jan 1 to its Monday, then skip
forward a week when Jan 1 falls on Fri/Sat/Sun. -/
def week1monday (y : Nat) : Nat :=
  if (rataDie y 1 1 + 6) % 7 ≤ 3 then rataDie y 1 1 - (rataDie y 1 1 + 6) % 7
  else rataDie y 1 1 + 7 - (rataDie y 1 1 + 6) % 7

/-- An ISO year has 53 weeks iff Jan 1 is a Thursday, or a Wednesday in a
leap year (Python `date.fromisocalendar`'s week-53 test). -/
def isLongIsoYear (y : Nat) : Bool :=
  rataDie y 1 1 % 7 == 4 || (rataDie y 1 1 % 7 == 3 && isLeap y)

/-- Number of ISO weeks of ISO year `y` (52 or 53). -/
def isoWeeksInYear (y : Nat) : Nat := if isLongIsoYear y then 53 else 52

/-- `date(y, m, d).isocalendar()` restricted to its (ISO year, ISO week)
components, following CPython's algorithm. -/
def isoCalendar (y m d : Nat) : Nat × Nat :=
  let o := rataDie y m d
  let w1 := week1monday y
  if o < w1 then
    (y - 1, (o - week1monday (y - 1)) / 7 + 1)
  else
    let wk := (o - w1) / 7
    if 52 ≤ wk && week1monday (y + 1) ≤ o then (y + 1, 1) else (y, wk + 1)

/-- Ordinal of the Monday of ISO week `v` of ISO year `g`
(`date.fromisocalendar(g, v, 1)`). -/
def isoWeekMonday (g v : Nat) : Nat := week1monday g + 7 * (v - 1)

/-! ### Digits, zero-padded fields and window-key strings -/

/-- The digit character for `n < 10`. -/
def dch (n : Nat) : Char := Char.ofNat (48 + n)

/-- Numeric value of a digit character. -/
def dv (c : Char) : Nat := c.toNat - 48

/-- Is `c` an ASCII digit? -/
def isDig (c : Char) : Bool := 48 ≤ c.toNat && c.toNat ≤ 57

/-- Value of a two-digit field. -/
def num2 (a b : Char) : Nat := dv a * 10 + dv b

/-- Value of a four-digit field. -/
def num4 (a b c d : Char) : Nat := dv a * 1000 + dv b * 100 + dv c * 10 + dv d

/-- Two-digit zero-padded decimal (strftime `%m`, `%d`, `%V`), `n < 100`. -/
def pad2 (n : Nat) : List Char := [dch (n / 10 % 10), dch (n % 10)]

/-- Four-digit zero-padded decimal (strftime `%Y`, `%G`), `n ≤ 9999`. -/
def pad4 (n : Nat) : List Char :=
  [dch (n / 1000 % 10), dch (n / 100 % 10), dch (n / 10 % 10), dch (n % 10)]

/-- Canonical day window key `YYYY-MM-DD` (strftime `"%Y-%m-%d"`). -/
def day_key (y m d : Nat) : String := ⟨pad4 y ++ '-' :: (pad2 m ++ '-' :: pad2 d)⟩

/-- Canonical week window key `YYYY-Www` (strftime `"%G-W%V"`). -/
def week_key (g v : Nat) : String := ⟨pad4 g ++ '-' :: 'W' :: pad2 v⟩

/-- Canonical month window key `YYYY-MM` (strftime `"%Y-%m"`). -/
def month_key (y m : Nat) : String := ⟨pad4 y ++ '-' :: pad2 m⟩

/-- The three window granularities accepted by `--window`. -/
inductive Window | day | week | month
deriving DecidableEq

/-- `make_window_col` of `trend_tracker_local.py`, per record: derive the
canonical window-key string of a date. -/
def make_window_col (w : Window) (y m d : Nat) : String :=
  match w with
  | .day => day_key y m d
  | .week =>
      let gw := isoCalendar y m d
      week_key gw.1 gw.2
  | .month => month_key y m

/-! ### `window_to_sortkey` (the ChronologicalOrderer) -/

/-- Does the character list start with `-W`? -/
def startsDashW (cs : List Char) : Bool :=
  match cs with
  | a :: b :: _ => a == '-' && b == 'W'
  | _ => false

/-- The Python substring test `"-W" in w`. -/
def hasWeekMarker : List Char → Bool
  | [] => false
  | c :: rest => startsDashW (c :: rest) || hasWeekMarker rest

/-- `datetime.strptime(w, "%Y-%m-%d")` on a length-10 string: succeeds only
for the exact `DDDD-DD-DD` digit layout with a valid Gregorian date
(year ≥ 1; a four-digit year is ≤ 9999 automatically). -/
def parseDayKey : List Char → Option (Nat × Nat × Nat)
  | [a, b, c, d, e, f, g, h, i, j] =>
    if isDig a && isDig b && isDig c && isDig d && e == '-' &&
       isDig f && isDig g && h == '-' && isDig i && isDig j then
      if 1 ≤ num4 a b c d ∧ 1 ≤ num2 f g ∧ num2 f g ≤ 12 ∧ 1 ≤ num2 i j ∧
         num2 i j ≤ daysInMonth (num4 a b c d) (num2 f g) then
        some (num4 a b c d, num2 f g, num2 i j)
      else none
    else none
  | _ => none

/-- `datetime.strptime(w, "%Y-%m")` on a length-7 string. -/
def parseMonthKey : List Char → Option (Nat × Nat)
  | [a, b, c, d, e, f, g] =>
    if isDig a && isDig b && isDig c && isDig d && e == '-' &&
       isDig f && isDig g then
      if 1 ≤ num4 a b c d ∧ 1 ≤ num2 f g ∧ num2 f g ≤ 12 then
        some (num4 a b c d, num2 f g)
      else none
    else none
  | _ => none

/-- `pd.to_datetime(w + "-1", format="%G-W%V-%u")`: `w` must be four
digits, `-W`, then a one- or two-digit week valid for that ISO year. -/
def parseWeekKey : List Char → Option (Nat × Nat)
  | [a, b, c, d, e, f, g] =>
    if isDig a && isDig b && isDig c && isDig d && e == '-' && f == 'W' &&
       isDig g then
      if 1 ≤ num4 a b c d ∧ 1 ≤ dv g ∧ dv g ≤ isoWeeksInYear (num4 a b c d) then
        some (num4 a b c d, dv g)
      else none
    else none
  | [a, b, c, d, e, f, g, h] =>
    if isDig a && isDig b && isDig c && isDig d && e == '-' && f == 'W' &&
       isDig g && isDig h then
      if 1 ≤ num4 a b c d ∧ 1 ≤ num2 g h ∧ num2 g h ≤ isoWeeksInYear (num4 a b c d) then
        some (num4 a b c d, num2 g h)
      else none
    else none
  | _ => none

/-- `window_to_sortkey` of `compute_trend_scores`: recover an orderable
instant (rata-die ordinal) from a window-key string; any parse failure
yields `datetime.min`, i.e. ordinal `1`.  The branches are tried in the
source's order; an exception inside a branch falls through to the
sentinel, not to later branches. -/
def window_to_sortkey (w : String) : Nat :=
  let cs := w.data
  if cs.length = 10 then
    match parseDayKey cs with
    | some (y, m, d) => rataDie y m d
    | none => 1
  else if hasWeekMarker cs then
    match parseWeekKey cs with
    | some (g, v) => isoWeekMonday g v
    | none => 1
  else if cs.length = 7 then
    match parseMonthKey cs with
    | some (y, m) => rataDie y m 1
    | none => 1
  else 1

/-! ### A stable sort, modelling `pandas.sort_values` / sorted `groupby` keys -/

/-- Insert `a` before the first element `b` with `le a b`. -/
def insertLe (le : α → α → Bool) (a : α) : List α → List α
  | [] => [a]
  | b :: bs => if le a b then a :: b :: bs else b :: insertLe le a bs

/-- Stable insertion sort by the boolean relation `le`.  All stable sorts
agree, so this models pandas' key-based stable sorting. -/
def sortLe (le : α → α → Bool) : List α → List α
  | [] => []
  | x :: xs => insertLe le x (sortLe le xs)

theorem insertLe_perm (le : α → α → Bool) (a : α) (l : List α) :
    List.Perm (insertLe le a l) (a :: l) := by
  induction l with
  | nil => simp [insertLe]
  | cons b bs ih =>
      by_cases h : le a b = true
      · simp [insertLe, h]
      · simp only [insertLe, h, if_false, Bool.false_eq_true]
        exact ((ih.cons b).trans (List.Perm.swap a b bs))

theorem sortLe_perm (le : α → α → Bool) (l : List α) :
    List.Perm (sortLe le l) l := by
  induction l with
  | nil => simp [sortLe]
  | cons x xs ih => exact (insertLe_perm le x (sortLe le xs)).trans (ih.cons x)

theorem mem_sortLe {le : α → α → Bool} {l : List α} {a : α} :
    a ∈ sortLe le l ↔ a ∈ l := (sortLe_perm le l).mem_iff

theorem length_sortLe (le : α → α → Bool) (l : List α) :
    (sortLe le l).length = l.length := (sortLe_perm le l).length_eq

theorem pairwise_insertLe {le : α → α → Bool}
    (htot : ∀ a b, le a b || le b a) (htrans : ∀ a b c, le a b → le b c → le a c)
    {l : List α} (hl : l.Pairwise (fun a b => le a b = true)) (a : α) :
    (insertLe le a l).Pairwise (fun a b => le a b = true) := by
  induction l with
  | nil => simp [insertLe]
  | cons b bs ih =>
      rcases List.pairwise_cons.mp hl with ⟨hb, hbs⟩
      by_cases h : le a b = true
      · rw [show insertLe le a (b :: bs) = a :: b :: bs by simp [insertLe, h]]
        refine List.pairwise_cons.mpr ⟨?_, hl⟩
        intro c hc
        rcases List.mem_cons.mp hc with rfl | hc
        · exact h
        · exact htrans a b c h (hb c hc)
      · have hba : le b a = true := by
          rcases Bool.or_eq_true_iff.mp (htot a b) with h' | h'
          · exact absurd h' h
          · exact h'
        simp only [insertLe, h, if_false, Bool.false_eq_true]
        refine List.pairwise_cons.mpr ⟨?_, ih hbs⟩
        intro c hc
        rcases List.mem_cons.mp ((insertLe_perm le a bs).mem_iff.mp hc) with rfl | hc
        · exact hba
        · exact hb c hc

theorem pairwise_sortLe {le : α → α → Bool}
    (htot : ∀ a b, le a b || le b a) (htrans : ∀ a b c, le a b → le b c → le a c)
    (l : List α) : (sortLe le l).Pairwise (fun a b => le a b = true) := by
  induction l with
  | nil => simp [sortLe]
  | cons x xs ih => exact pairwise_insertLe htot htrans ih x

theorem insertLe_eq_cons {le : α → α → Bool} {a : α} {l : List α}
    (h : ∀ b, l.head? = some b → le a b = true) : insertLe le a l = a :: l := by
  cases l with
  | nil => rfl
  | cons b bs => simp [insertLe, h b rfl]

theorem sortLe_eq_self {le : α → α → Bool} {l : List α}
    (hl : l.Pairwise (fun a b => le a b = true)) : sortLe le l = l := by
  induction l with
  | nil => rfl
  | cons x xs ih =>
      rcases List.pairwise_cons.mp hl with ⟨hx, hxs⟩
      rw [sortLe, ih hxs]
      refine insertLe_eq_cons fun b hb => ?_
      cases xs with
      | nil => exact absurd hb (by simp)
      | cons c cs =>
          injection hb with h'
          subst h'
          exact hx c (List.mem_cons_self c cs)

theorem filter_insertLe_pos {le : α → α → Bool} {p : α → Bool} {a : α}
    (hpa : p a = true) (hle : ∀ b, p b = true → le a b = true) (l : List α) :
    List.filter p (insertLe le a l) = a :: List.filter p l := by
  induction l with
  | nil => simp [insertLe, hpa]
  | cons b bs ih =>
      by_cases h : le a b = true
      · simp [insertLe, h, hpa]
      · have hpb : p b = false := by
          cases hb : p b with
          | false => rfl
          | true => exact absurd (hle b hb) h
        simp [insertLe, h, hpb, ih]

theorem filter_insertLe_neg {le : α → α → Bool} {p : α → Bool} {a : α}
    (hpa : p a = false) (l : List α) :
    List.filter p (insertLe le a l) = List.filter p l := by
  induction l with
  | nil => simp [insertLe, hpa]
  | cons b bs ih =>
      by_cases h : le a b = true
      · simp [insertLe, h, hpa]
      · cases hb : p b with
        | false => simp [insertLe, h, hb, ih]
        | true => simp [insertLe, h, hb, ih]

/-- Stability of `sortLe`: a class of mutually `le`-equivalent elements
keeps its original relative order. -/
theorem filter_sortLe {le : α → α → Bool} {p : α → Bool}
    (hle : ∀ a b, p a = true → p b = true → le a b = true) (l : List α) :
    List.filter p (sortLe le l) = List.filter p l := by
  induction l with
  | nil => rfl
  | cons x xs ih =>
      cases hx : p x with
      | true =>
          rw [sortLe, filter_insertLe_pos hx (fun b hb => hle x b hx hb),
            ih, List.filter_cons_of_pos hx]
      | false =>
          rw [sortLe, filter_insertLe_neg hx, ih, List.filter_cons_of_neg
            (by simp [hx])]

theorem insertLe_congr {le₁ le₂ : α → α → Bool} {a : α} {l : List α}
    (h : ∀ b ∈ l, le₁ a b = le₂ a b) : insertLe le₁ a l = insertLe le₂ a l := by
  induction l with
  | nil => rfl
  | cons b bs ih =>
      have hb := h b (List.mem_cons_self b bs)
      by_cases h1 : le₁ a b = true
      · simp [insertLe, h1, hb ▸ h1]
      · have h2 : le₂ a b ≠ true := hb ▸ h1
        simp only [insertLe, h1, if_false, h2, Bool.false_eq_true]
        rw [ih (fun c hc => h c (List.mem_cons_of_mem b hc))]

/-! ### Admissible implementations of `pandas.sort_values` -/

/-- The type of a polymorphic list-sorting routine. -/
def SortImpl : Type 1 := {α : Type} → (α → α → Bool) → List α → List α

/-- Specification of an admissible implementation of
`DataFrame.sort_values(..., kind="quicksort")` on a single key: for every
total and transitive boolean key order, the output is a permutation of
the input sorted by the key.  pandas documents the default quicksort
(numpy introsort) as not stable — only segments below numpy's small-array
insertion-sort cutoff keep their order — so the relative order of tied
rows is implementation-defined and the model leaves it open: the pipeline
functions take the sort routine as a parameter constrained only by this
predicate. -/
def IsKeySort (psort : SortImpl) : Prop :=
  ∀ {α : Type} (le : α → α → Bool),
    (∀ a b, (le a b || le b a) = true) →
    (∀ a b c, le a b = true → le b c = true → le a c = true) →
    ∀ l : List α,
      List.Perm (psort le l) l ∧
      (psort le l).Pairwise (fun a b => le a b = true)

/-- The stable insertion sort is one admissible implementation. -/
theorem isKeySort_sortLe : IsKeySort (fun {α} => sortLe) := by
  intro α le htot htrans l
  exact ⟨sortLe_perm le l, pairwise_sortLe htot htrans l⟩

/-! ### Python string comparison (lexicographic on code points) -/

/-- Strict lexicographic comparison of character lists by code point,
Python's `str.__lt__`. -/
def charListLt : List Char → List Char → Bool
  | [], [] => false
  | [], _ :: _ => true
  | _ :: _, [] => false
  | a :: as, b :: bs => decide (a < b) || (a == b && charListLt as bs)

/-- Python `a < b` on strings. -/
def strLt (a b : String) : Bool := charListLt a.data b.data

/-- Python `a <= b` on strings. -/
def strLe (a b : String) : Bool := strLt a b || a == b

/-! ### Records of the pipeline -/

/-- A raw input row after ingestion coercion and window annotation
(the dataframe at the end of `main`'s preprocessing). -/
structure RawRow where
  hashtag : String
  window : String
  mentions : Int
  estimated_reach : Int
  sentiment_score : ℚ
deriving DecidableEq

/-- One output row of `aggregate` (an Aggregated Window Record). -/
structure AggRecord where
  hashtag : String
  window : String
  mentionsSum : Int
  reachSum : Int
  sentimentAvg : ℚ
  rowsCount : Nat
deriving DecidableEq

/-- One output row of `compute_trend_scores` (a Trend Score Record). -/
structure TrendRecord where
  hashtag : String
  window : String
  score : ℚ
  mentions : Int
  reach : Int
  sentiment : ℚ
  rowsCount : Nat
deriving DecidableEq

/-! ### `aggregate` -/

/-- The grouping key of `aggregate`: `(hashtag, window)`. -/
def rowKey (r : RawRow) : String × String := (r.hashtag, r.window)

/-- Lexicographic order on `(hashtag, window)` pairs: the order in which
`pandas.groupby(["hashtag", window_col], sort=True)` emits its groups. -/
def pairLe (a b : String × String) : Bool :=
  strLt a.1 b.1 || (a.1 == b.1 && strLe a.2 b.2)

/-- `aggregate` of `trend_tracker_local.py`: group rows by
`(hashtag, window)` (groups sorted by key, rows kept in input order) and
reduce each group to sums, mean sentiment and cardinality. -/
def aggregate (rows : List RawRow) : List AggRecord :=
  let keys := sortLe pairLe ((rows.map rowKey).dedup)
  keys.map (fun k =>
    let g := rows.filter (fun r => r.hashtag == k.1 && r.window == k.2)
    { hashtag := k.1, window := k.2,
      mentionsSum := (g.map (fun r => r.mentions)).sum,
      reachSum := (g.map (fun r => r.estimated_reach)).sum,
      sentimentAvg := (g.map (fun r => r.sentiment_score)).sum / (g.length : ℚ),
      rowsCount := g.length })

/-! ### `compute_trend_scores` (the TrendScorer) -/

/-- The spec's growth formula (§4.4): `0.0` with no previous window, else
`(mentions_i - m_prev) / (m_prev + 1.0)`. -/
def specGrowth (prev : Option Int) (m : Int) : ℚ :=
  match prev with
  | none => 0
  | some p => ((m : ℚ) - (p : ℚ)) / ((p : ℚ) + 1)

/-- The spec's score formula (§4.4):
`growth * ln(reach + 1.0) * (1.0 + sentiment)`. -/
def specScore (log : ℚ → ℚ) (growth : ℚ) (reach : Int) (sentiment : ℚ) : ℚ :=
  growth * log ((reach : ℚ) + 1) * (1 + sentiment)

/-- The score as the code computes it: `math.log` raises for a
non-positive argument and the `try`/`except` then falls back to `growth`
(the NaN/Inf guard cannot fire in an exact-arithmetic model). -/
def scoreOf (log : ℚ → ℚ) (growth : ℚ) (reach : Int) (sentiment : ℚ) : ℚ :=
  if (reach : ℚ) + 1 ≤ 0 then growth
  else growth * log ((reach : ℚ) + 1) * (1 + sentiment)

/-- The Trend Score Record built for one aggregated record, given the
previous window's `mentions_sum` (the `sentiment_avg` NaN test of the code
is vacuous here: rationals have no NaN). -/
def scoreOne (log : ℚ → ℚ) (prev : Option Int) (r : AggRecord) : TrendRecord :=
  { hashtag := r.hashtag, window := r.window,
    score := scoreOf log (specGrowth prev r.mentionsSum) r.reachSum r.sentimentAvg,
    mentions := r.mentionsSum, reach := r.reachSum,
    sentiment := r.sentimentAvg, rowsCount := r.rowsCount }

/-- The per-hashtag scan of `compute_trend_scores`.  `prev_mentions = -1`
makes the growth division raise `ZeroDivisionError` (uncaught: the
`try` only wraps the score line), modelled as `none`.  `prev_mentions` is
updated to the current `mentions_sum` on every iteration. -/
def scoreGroup (log : ℚ → ℚ) : Option Int → List AggRecord → Option (List TrendRecord)
  | _, [] => some []
  | prev, r :: rs =>
      if prev = some (-1) then none
      else
        match scoreGroup log (some r.mentionsSum) rs with
        | some ts => some (scoreOne log prev r :: ts)
        | none => none

/-- The same scan ignoring the division-by-zero exception. -/
def scoreGroupT (log : ℚ → ℚ) : Option Int → List AggRecord → List TrendRecord
  | _, [] => []
  | prev, r :: rs => scoreOne log prev r :: scoreGroupT log (some r.mentionsSum) rs

/-- Order on aggregated records by the `_sort` column alone — pandas
`g.sort_values("_sort")`. -/
def sortkeyLe (a b : AggRecord) : Bool :=
  decide (window_to_sortkey a.window ≤ window_to_sortkey b.window)

/-- The per-hashtag processing order of `compute_trend_scores`:
`g.sort_values("_sort")` applied to the hashtag's records in input order.
The sort is pandas' default quicksort, so the order of records with tied
sortkeys is implementation-defined: it is whatever the `psort` parameter
produces. -/
def scorerOrder (psort : SortImpl) (agg : List AggRecord) (h : String) :
    List AggRecord :=
  psort sortkeyLe (agg.filter (fun r => r.hashtag == h))

/-- Canonical presentation order: window ascending, score descending —
`sort_values(["window", "score"], ascending=[True, False])`. -/
def canonLe (a b : TrendRecord) : Bool :=
  strLt a.window b.window || (a.window == b.window && decide (b.score ≤ a.score))

/-- `Option`-propagating map: a Python loop that stops at the first
uncaught exception. -/
def mapO (f : α → Option β) : List α → Option (List β)
  | [] => some []
  | a :: as =>
      match f a, mapO f as with
      | some b, some bs => some (b :: bs)
      | _, _ => none

/-- `compute_trend_scores` of `trend_tracker_local.py`: group by hashtag
(keys ascending — distinct keys, so that order is uniquely determined),
order each group chronologically, scan it for growth and score, then
sort the full result canonically.  When the collected row list is empty
(no input records), `pd.DataFrame([])` has no columns and
`sort_values(["window", "score"])` raises `KeyError`, modelled as
`none`; the final sort is again pandas' unstable default quicksort,
hence the `psort` parameter. -/
def compute_trend_scores (log : ℚ → ℚ) (psort : SortImpl)
    (agg : List AggRecord) : Option (List TrendRecord) :=
  let keys := sortLe strLe ((agg.map (fun r => r.hashtag)).dedup)
  match mapO (fun h => scoreGroup log none (scorerOrder psort agg h)) keys with
  | some gs => if gs.flatten = [] then none else some (psort canonLe gs.flatten)
  | none => none

/-! ### `topk_per_window` (the TopKSelector) -/

/-- `DataFrame.head(k)`: first `k` rows for `k ≥ 0`, all but the last
`|k|` rows for negative `k`. -/
def pandasHead (k : Int) (l : List α) : List α :=
  if 0 ≤ k then l.take k.toNat else l.take (l.length - (-k).toNat)

/-- Order by score descending — `g.sort_values("score", ascending=False)`. -/
def scoreDescLe (a b : TrendRecord) : Bool := decide (b.score ≤ a.score)

/-- The rows retained for one window: the window's records sorted by
score descending — `g.sort_values("score", ascending=False)`, pandas'
unstable default quicksort, so the order among tied scores is whatever
`psort` produces — cut by `head(k)`.  The rebuilt output dict of the
source copies every field, so it is the record itself. -/
def topkGroup (psort : SortImpl) (trend : List TrendRecord) (k : Int)
    (w : String) : List TrendRecord :=
  pandasHead k (psort scoreDescLe (trend.filter (fun r => r.window == w)))

/-- The distinct window keys in ascending order — `groupby("window")`'s
iteration order (keys are distinct, so it is uniquely determined). -/
def windowKeys (trend : List TrendRecord) : List String :=
  sortLe strLe ((trend.map (fun r => r.window)).dedup)

/-- The `out_rows` list of `topk_per_window`: each window's retained
rows, in window-key order. -/
def topkRows (psort : SortImpl) (trend : List TrendRecord) (k : Int) :
    List TrendRecord :=
  ((windowKeys trend).map (topkGroup psort trend k)).flatten

/-- `topk_per_window` of `trend_tracker_local.py`: group by window (keys
ascending), keep the head `k` of each group sorted by score descending,
then sort canonically.  When `out_rows` is empty (always for `k = 0`,
for negative `k` when every window has at most `|k|` candidates, and for
empty input), `pd.DataFrame([])` has no columns and
`sort_values(["window", "score"])` raises `KeyError`, modelled as
`none`. -/
def topk_per_window (psort : SortImpl) (trend : List TrendRecord) (k : Int) :
    Option (List TrendRecord) :=
  if topkRows psort trend k = [] then none
  else some (psort canonLe (topkRows psort trend k))

/-! ### `mapper.py` and the ingestion coercion of `main` -/

/-- Value of a non-empty all-digit character list. -/
def digitsVal (cs : List Char) : Option Nat :=
  if cs ≠ [] ∧ cs.all isDig then
    some (cs.foldl (fun a c => a * 10 + dv c) 0)
  else none

/-- Python `int(str)`: optional surrounding whitespace, an optional sign,
then digits.  (CPython additionally allows underscore digit-group
separators, not modelled.) -/
def parseIntLit (cs : List Char) : Option Int :=
  let t := ((cs.dropWhile Char.isWhitespace).reverse.dropWhile
    Char.isWhitespace).reverse
  match t with
  | [] => none
  | c :: rest =>
      if c = '+' then (digitsVal rest).map (fun n => (n : Int))
      else if c = '-' then (digitsVal rest).map (fun n => -(n : Int))
      else (digitsVal (c :: rest)).map (fun n => (n : Int))

/-- `safe_int` of `mapper.py`: `int(x)`, or `0` on any parse failure. -/
def safe_int (s : String) : Int :=
  match parseIntLit s.data with
  | some n => n
  | none => 0

/-- The per-field coercion of `main`
(`pd.to_numeric(col, errors="coerce").fillna(0).astype(int)`), restricted
to integer literals (float literals, also accepted by `to_numeric`, are
beyond this model's scope). -/
def to_numeric_int (s : String) : Int :=
  match parseIntLit s.data with
  | some n => n
  | none => 0

/-- Python `str.strip()`: remove leading and trailing whitespace. -/
def pyStrip (s : String) : String :=
  ⟨((s.data.dropWhile Char.isWhitespace).reverse.dropWhile
    Char.isWhitespace).reverse⟩

/-- The mapper's per-row emission: strip the hashtag, drop the row if it
is empty, else emit `(hashtag, safe_int(mentions))`. -/
def mapperEmit (hashtagField mentionsField : String) : Option (String × Int) :=
  let h := pyStrip hashtagField
  if h = "" then none else some (h, safe_int (pyStrip mentionsField))

example : safe_int "-5" = -5 := by decide
example : safe_int "42" = 42 := by decide
example : safe_int "x42" = 0 := by decide
example : safe_int "" = 0 := by decide
example : strLt "2024-01" "2024-02" = true := by decide
example : pandasHead (-1) [1, 2, 3] = [1, 2] := by rfl
example : pandasHead 2 [1, 2, 3] = [1, 2] := by rfl

example : window_to_sortkey "0001-01-01" = 1 := by decide
example : window_to_sortkey "hello" = 1 := by decide
example : window_to_sortkey "2023-W99" = 1 := by decide
example : window_to_sortkey "2023-01" = rataDie 2023 1 1 := by decide
example : window_to_sortkey "2023-W01" = rataDie 2023 1 2 := by decide
example : make_window_col Window.week 2023 1 1 = "2022-W52" := by decide
example : make_window_col Window.day 2025 5 1 = "2025-05-01" := by decide

/-! ### Claim C9: ingestion coercion and non-negativity -/

theorem isDig_not_ws {c : Char} (h : isDig c = true) : c.isWhitespace = false := by
  simp only [isDig, Bool.and_eq_true, decide_eq_true_eq] at h
  simp only [Char.isWhitespace, Bool.or_eq_false_iff, decide_eq_false_iff_not]
  refine ⟨⟨⟨?_, ?_⟩, ?_⟩, ?_⟩ <;> rintro rfl <;> revert h <;> decide

theorem dropWhile_ws_of_digits {cs : List Char} (h : cs.all isDig = true) :
    cs.dropWhile Char.isWhitespace = cs := by
  cases cs with
  | nil => rfl
  | cons c cs =>
      have hc : isDig c = true := by
        have := List.all_eq_true.mp h c (List.mem_cons_self c cs)
        exact this
      simp [List.dropWhile_cons, isDig_not_ws hc]

theorem parseIntLit_digits {cs : List Char} (hne : cs ≠ [])
    (hall : cs.all isDig = true) :
    parseIntLit cs = some ((cs.foldl (fun a c => a * 10 + dv c) 0 : Nat) : Int) := by
  have h1 : cs.dropWhile Char.isWhitespace = cs := dropWhile_ws_of_digits hall
  have h2 : cs.reverse.dropWhile Char.isWhitespace = cs.reverse :=
    dropWhile_ws_of_digits (by simpa using hall)
  cases cs with
  | nil => exact absurd rfl hne
  | cons c cs =>
      have hc : isDig c = true := List.all_eq_true.mp hall c (List.mem_cons_self c cs)
      have hplus : c ≠ '+' := by rintro rfl; revert hc; decide
      have hminus : c ≠ '-' := by rintro rfl; revert hc; decide
      simp only [parseIntLit, h1, h2, List.reverse_reverse, if_neg hplus,
        if_neg hminus]
      rw [digitsVal, if_pos ⟨List.cons_ne_nil c cs, hall⟩]
      rfl

/-- C9 is false on the code: neither `main`'s
`pd.to_numeric(...).fillna(0).astype(int)` coercion nor the mapper's
`safe_int` clamps negative values, so the text `-5` yields the negative
integer `-5` both for a record entering the aggregator and for the
key-value pair emitted by the simplified mapper. -/
theorem C9_counterexample :
    safe_int "-5" = -5 ∧ safe_int "-5" < 0 ∧ to_numeric_int "-5" = -5 ∧
    mapperEmit "#x" "-5" = some ("#x", -5) := by decide

/-- C9 (amended): after ingestion coercion the numeric fields are
integers, any value that fails to parse as a number is mapped to `0`, and
the coerced value is non-negative whenever the field text is an unsigned
digit string — but no clamping is performed, so negative inputs stay
negative.  `main`'s coercion and the mapper's `safe_int` agree. -/
theorem C9_coercion_amended :
    (∀ s : String, parseIntLit s.data = none → safe_int s = 0) ∧
    (∀ (s : String) (n : Int), parseIntLit s.data = some n → safe_int s = n) ∧
    (∀ s : String, s.data ≠ [] → s.data.all isDig = true → 0 ≤ safe_int s) ∧
    (∀ s : String, to_numeric_int s = safe_int s) := by
  refine ⟨fun s h => ?_, fun s n h => ?_, fun s hne hall => ?_, fun s => rfl⟩
  · simp [safe_int, h]
  · simp [safe_int, h]
  · rw [safe_int, parseIntLit_digits hne hall]
    exact Int.natCast_nonneg _

/-- Witness for `C9_coercion_amended` at concrete inputs. -/
theorem C9_coercion_amended_witness :
    safe_int "abc" = 0 ∧ safe_int "007" = 7 ∧ 0 ≤ safe_int "2024" := by
  refine ⟨C9_coercion_amended.1 "abc" (by decide),
    C9_coercion_amended.2.1 "007" 7 (by decide),
    C9_coercion_amended.2.2.1 "2024" (by decide) (by decide)⟩

/-! ### Claim C3: totality of the ChronologicalOrderer -/

theorem isDig_dch_mod (n : Nat) : isDig (dch (n % 10)) = true := by
  have h : n % 10 < 10 := Nat.mod_lt _ (by norm_num)
  interval_cases h' : n % 10 <;> decide

theorem dv_dch_mod (n : Nat) : dv (dch (n % 10)) = n % 10 := by
  have h : n % 10 < 10 := Nat.mod_lt _ (by norm_num)
  interval_cases h' : n % 10 <;> decide

theorem dch_mod_ne_dash (n : Nat) : (dch (n % 10) == '-') = false := by
  have h : n % 10 < 10 := Nat.mod_lt _ (by norm_num)
  interval_cases h' : n % 10 <;> decide

theorem dch_mod_ne_W (n : Nat) : (dch (n % 10) == 'W') = false := by
  have h : n % 10 < 10 := Nat.mod_lt _ (by norm_num)
  interval_cases h' : n % 10 <;> decide

theorem num4_pad4 {n : Nat} (h : n ≤ 9999) :
    num4 (dch (n / 1000 % 10)) (dch (n / 100 % 10)) (dch (n / 10 % 10))
      (dch (n % 10)) = n := by
  rw [num4, dv_dch_mod, dv_dch_mod, dv_dch_mod, dv_dch_mod]; omega

theorem num2_pad2 {n : Nat} (h : n ≤ 99) :
    num2 (dch (n / 10 % 10)) (dch (n % 10)) = n := by
  rw [num2, dv_dch_mod, dv_dch_mod]; omega

theorem parseDayKey_day_key {y m d : Nat} (h : validDate y m d) :
    parseDayKey (day_key y m d).data = some (y, m, d) := by
  obtain ⟨hy1, hy2, hm1, hm2, hd1, hd2⟩ := h
  have hm99 : m ≤ 99 := by omega
  have hd99 : d ≤ 99 := by
    have : daysInMonth y m ≤ 31 := by unfold daysInMonth; split <;> split <;> omega
    omega
  simp only [day_key, pad4, pad2, List.cons_append, List.nil_append, parseDayKey,
    isDig_dch_mod, Bool.and_self, Bool.true_and, Bool.and_true, beq_self_eq_true,
    if_true, num4_pad4 hy2, num2_pad2 hm99, num2_pad2 hd99]
  rw [if_pos ⟨hy1, hm1, hm2, hd1, hd2⟩]

theorem parseMonthKey_month_key {y m : Nat} (hy1 : 1 ≤ y) (hy2 : y ≤ 9999)
    (hm1 : 1 ≤ m) (hm2 : m ≤ 12) :
    parseMonthKey (month_key y m).data = some (y, m) := by
  have hm99 : m ≤ 99 := by omega
  simp only [month_key, pad4, pad2, List.cons_append, List.nil_append,
    parseMonthKey, isDig_dch_mod, Bool.and_self, Bool.true_and, Bool.and_true,
    beq_self_eq_true, if_true, num4_pad4 hy2, num2_pad2 hm99]
  rw [if_pos ⟨hy1, hm1, hm2⟩]

theorem parseWeekKey_week_key {g v : Nat} (hg1 : 1 ≤ g) (hg2 : g ≤ 9999)
    (hv1 : 1 ≤ v) (hv2 : v ≤ isoWeeksInYear g) :
    parseWeekKey (week_key g v).data = some (g, v) := by
  have hv99 : v ≤ 99 := by
    have : isoWeeksInYear g ≤ 53 := by unfold isoWeeksInYear; split <;> omega
    omega
  simp only [week_key, pad4, pad2, List.cons_append, List.nil_append,
    parseWeekKey, isDig_dch_mod, Bool.and_self, Bool.true_and, Bool.and_true,
    beq_self_eq_true, if_true, num4_pad4 hg2, num2_pad2 hv99]
  rw [if_pos ⟨hg1, hv1, hv2⟩]

theorem hasWeekMarker_week_key (g v : Nat) :
    hasWeekMarker (week_key g v).data = true := by
  simp [week_key, pad4, pad2, hasWeekMarker, startsDashW, dch_mod_ne_dash]

theorem hasWeekMarker_month_key (y m : Nat) :
    hasWeekMarker (month_key y m).data = false := by
  simp [month_key, pad4, pad2, hasWeekMarker, startsDashW, dch_mod_ne_dash,
    dch_mod_ne_W]

theorem parseDayKey_d_pos {cs : List Char} {y m d : Nat}
    (h : parseDayKey cs = some (y, m, d)) : 1 ≤ d := by
  rcases cs with _ | ⟨a, _ | ⟨b, _ | ⟨c, _ | ⟨e, _ | ⟨f, _ | ⟨g, _ | ⟨i,
    _ | ⟨j, _ | ⟨k, _ | ⟨l, _ | ⟨x, t⟩⟩⟩⟩⟩⟩⟩⟩⟩⟩⟩ <;>
    (simp [parseDayKey] at h; try omega)

theorem week1monday_pos (g : Nat) : 1 ≤ week1monday g := by
  have hj : 1 ≤ rataDie g 1 1 := by unfold rataDie; omega
  unfold week1monday
  split <;> omega

theorem one_le_window_to_sortkey (s : String) : 1 ≤ window_to_sortkey s := by
  simp only [window_to_sortkey]
  split
  · split
    · rename_i y m d heq
      have hd := parseDayKey_d_pos heq
      unfold rataDie; omega
    · omega
  · split
    · split
      · rename_i g v heq
        have := week1monday_pos g
        unfold isoWeekMonday; omega
      · omega
    · split
      · split
        · unfold rataDie; omega
        · omega
      · omega

/-- C3: `window_to_sortkey` is total and never raises.  A valid canonical
day key parses to its date's ordinal; a canonical week key parses to the
ordinal of that ISO week's Monday; a canonical month key parses to the
first of the month; every result is at least `datetime.min`'s ordinal,
and unparseable inputs land exactly on it — so any two window keys are
comparable. -/
theorem C3_sortkey_total :
    (∀ y m d, validDate y m d →
      window_to_sortkey (day_key y m d) = rataDie y m d) ∧
    (∀ g v, 1 ≤ g → g ≤ 9999 → 1 ≤ v → v ≤ isoWeeksInYear g →
      window_to_sortkey (week_key g v) = isoWeekMonday g v) ∧
    (∀ y m, 1 ≤ y → y ≤ 9999 → 1 ≤ m → m ≤ 12 →
      window_to_sortkey (month_key y m) = rataDie y m 1) ∧
    (∀ s : String, 1 ≤ window_to_sortkey s) ∧
    window_to_sortkey "2038-13-44" = 1 ∧ window_to_sortkey "garbage" = 1 := by
  refine ⟨fun y m d h => ?_, fun g v hg1 hg2 hv1 hv2 => ?_,
    fun y m hy1 hy2 hm1 hm2 => ?_, one_le_window_to_sortkey, by decide, by decide⟩
  · have hlen : (day_key y m d).data.length = 10 := by
      simp [day_key, pad4, pad2]
    simp only [window_to_sortkey]
    rw [if_pos hlen, parseDayKey_day_key h]
  · have hlen : ¬((week_key g v).data.length = 10) := by
      simp [week_key, pad4, pad2]
    simp only [window_to_sortkey]
    rw [if_neg hlen, if_pos (hasWeekMarker_week_key g v),
      parseWeekKey_week_key hg1 hg2 hv1 hv2]
  · have hlen : ¬((month_key y m).data.length = 10) := by
      simp [month_key, pad4, pad2]
    have hlen7 : (month_key y m).data.length = 7 := by
      simp [month_key, pad4, pad2]
    simp only [window_to_sortkey]
    rw [if_neg hlen, if_neg (by simp [hasWeekMarker_month_key]), if_pos hlen7,
      parseMonthKey_month_key hy1 hy2 hm1 hm2]

/-- Witness for `C3_sortkey_total` at concrete keys of all three
granularities. -/
theorem C3_sortkey_total_witness :
    window_to_sortkey "2025-05-01" = rataDie 2025 5 1 ∧
    window_to_sortkey "2022-W52" = isoWeekMonday 2022 52 ∧
    window_to_sortkey "2024-02" = rataDie 2024 2 1 ∧
    1 ≤ window_to_sortkey "??" := by
  refine ⟨?_, ?_, ?_, C3_sortkey_total.2.2.2.1 "??"⟩
  · have h := C3_sortkey_total.1 2025 5 1 (by decide)
    rwa [show day_key 2025 5 1 = "2025-05-01" by decide] at h
  · have h := C3_sortkey_total.2.1 2022 52 (by decide) (by decide) (by decide)
      (by decide)
    rwa [show week_key 2022 52 = "2022-W52" by decide] at h
  · have h := C3_sortkey_total.2.2.1 2024 2 (by decide) (by decide) (by decide)
      (by decide)
    rwa [show month_key 2024 2 = "2024-02" by decide] at h

/-! ### Claim C1: growth and score formulas of the scorer -/

theorem scoreGroupT_eq_zipWith (log : ℚ → ℚ) (prev : Option Int)
    (gs : List AggRecord) :
    scoreGroupT log prev gs =
      List.zipWith (scoreOne log)
        (prev :: gs.map (fun r => some r.mentionsSum)) gs := by
  induction gs generalizing prev with
  | nil => rfl
  | cons r rs ih =>
      simp only [scoreGroupT, List.map_cons, List.zipWith_cons_cons,
        ih (some r.mentionsSum)]

theorem scoreGroup_eq_some (log : ℚ → ℚ) :
    ∀ (gs : List AggRecord) (prev : Option Int), prev ≠ some (-1) →
      (∀ r ∈ gs, r.mentionsSum ≠ -1) →
      scoreGroup log prev gs = some (scoreGroupT log prev gs) := by
  intro gs
  induction gs with
  | nil => intro prev h1 h2; rfl
  | cons r rs ih =>
      intro prev h1 h2
      rw [scoreGroup, if_neg h1,
        ih (some r.mentionsSum)
          (by simp [h2 r (List.mem_cons_self r rs)])
          (fun x hx => h2 x (List.mem_cons_of_mem r hx))]
      rfl

/-- C1: the scan pairs every record with the `mentions_sum` of the
immediately preceding record of the group (`none` for the first one), and
updates that accumulator on every record (the `zipWith` equation); on
each record with non-negative reach the score is exactly the spec formula
`growth * ln(reach + 1) * (1 + sentiment)` with
`growth = 0` first and `(m_i - m_prev) / (m_prev + 1)` later; reach = 0
forces score = 0, and the first window's score is 0. -/
theorem C1_growth_and_score (log : ℚ → ℚ) (hlog : log 1 = 0) :
    (∀ gs : List AggRecord, (∀ r ∈ gs, r.mentionsSum ≠ -1) →
        scoreGroup log none gs = some (List.zipWith (scoreOne log)
          (none :: gs.map (fun r => some r.mentionsSum)) gs)) ∧
    (∀ (prev : Option Int) (r : AggRecord), 0 ≤ r.reachSum →
        (scoreOne log prev r).score =
          specScore log (specGrowth prev r.mentionsSum) r.reachSum
            r.sentimentAvg) ∧
    (∀ (prev : Option Int) (r : AggRecord), r.reachSum = 0 →
        (scoreOne log prev r).score = 0) ∧
    (∀ r : AggRecord, (scoreOne log none r).score = 0) := by
  refine ⟨fun gs hgs => ?_, fun prev r hr => ?_, fun prev r hr => ?_,
    fun r => ?_⟩
  · rw [scoreGroup_eq_some log gs none (by simp) hgs,
      scoreGroupT_eq_zipWith log none gs]
  · have hpos : ¬((r.reachSum : ℚ) + 1 ≤ 0) := by
      push_neg
      have : (0 : ℚ) ≤ (r.reachSum : ℚ) := by exact_mod_cast hr
      linarith
    rw [scoreOne, scoreOf, if_neg hpos, specScore]
  · have hpos : ¬((r.reachSum : ℚ) + 1 ≤ 0) := by rw [hr]; norm_num
    rw [scoreOne, scoreOf, if_neg hpos, hr]
    norm_num [hlog]
  · rw [scoreOne, scoreOf]
    have h0 : specGrowth none r.mentionsSum = 0 := rfl
    rw [h0]
    split <;> ring

/-- Witness for `C1_growth_and_score` at concrete records. -/
theorem C1_growth_and_score_witness :
    scoreGroup (fun _ => 0) none
        [⟨"x", "2025-05-01", 10, 100, 0, 1⟩, ⟨"x", "2025-05-02", 20, 300, 0, 1⟩]
      = some (List.zipWith (scoreOne (fun _ => 0))
          [none, some 10]
          [⟨"x", "2025-05-01", 10, 100, 0, 1⟩, ⟨"x", "2025-05-02", 20, 300, 0, 1⟩]) ∧
    (scoreOne (fun _ => 0) (some 10) ⟨"x", "2025-05-02", 20, 0, 0, 1⟩).score
      = 0 ∧
    (scoreOne (fun _ => 0) none ⟨"x", "2025-05-01", 10, 100, 0, 1⟩).score
      = 0 :=
  ⟨(C1_growth_and_score (fun _ => 0) rfl).1 _ (by decide),
   (C1_growth_and_score (fun _ => 0) rfl).2.2.1 (some 10) _ rfl,
   (C1_growth_and_score (fun _ => 0) rfl).2.2.2 _⟩

/-! ### Claim C4: exception behaviour of the scorer -/

theorem scoreGroupT_length (log : ℚ → ℚ) (prev : Option Int)
    (gs : List AggRecord) : (scoreGroupT log prev gs).length = gs.length := by
  induction gs generalizing prev with
  | nil => rfl
  | cons r rs ih => simp [scoreGroupT, ih]

theorem mapO_some {f : α → Option β} {g : α → β} :
    ∀ {l : List α}, (∀ a ∈ l, f a = some (g a)) → mapO f l = some (l.map g) := by
  intro l
  induction l with
  | nil => intro; rfl
  | cons a as ih =>
      intro h
      rw [mapO, h a (List.mem_cons_self a as),
        ih (fun x hx => h x (List.mem_cons_of_mem a hx))]
      rfl

theorem length_filter_partition (key : α → String) :
    ∀ (keys : List String), keys.Nodup → ∀ (l : List α),
      (∀ x ∈ l, key x ∈ keys) →
      (keys.map (fun k => (l.filter (fun x => key x == k)).length)).sum
        = l.length := by
  intro keys
  induction keys with
  | nil =>
      intro _ l hl
      have : l = [] := by
        cases l with
        | nil => rfl
        | cons x xs => exact absurd (hl x (List.mem_cons_self x xs)) (by simp)
      simp [this]
  | cons k ks ih =>
      intro hnd l hl
      rcases List.nodup_cons.mp hnd with ⟨hk, hks⟩
      have hperm := List.filter_append_perm (fun x => key x == k) l
      set l' := l.filter (fun x => !(key x == k)) with hl'
      have hrest : ∀ k' ∈ ks,
          l.filter (fun x => key x == k') = l'.filter (fun x => key x == k') := by
        intro k' hk'
        rw [hl', List.filter_filter]
        refine List.filter_congr fun x _ => ?_
        cases hx : (key x == k') with
        | false => simp [hx]
        | true =>
            have hxk' : key x = k' := by simpa using hx
            have hne : (key x == k) = false := by
              simp only [beq_eq_false_iff_ne, ne_eq, hxk']
              rintro rfl
              exact hk hk'
            simp [hx, hne]
      have hlen : (l.filter (fun x => key x == k)).length + l'.length = l.length := by
        have := hperm.length_eq
        simpa using this
      have hmem' : ∀ x ∈ l', key x ∈ ks := by
        intro x hx
        rcases List.mem_filter.mp hx with ⟨hxl, hxk⟩
        rcases List.mem_cons.mp (hl x hxl) with hkx | hkx
        · exfalso
          rw [hkx] at hxk
          simp at hxk
        · exact hkx
      have := ih hks l' hmem'
      simp only [List.map_cons, List.sum_cons]
      calc (l.filter (fun x => key x == k)).length
          + (ks.map (fun k' => (l.filter (fun x => key x == k')).length)).sum
      _ = (l.filter (fun x => key x == k)).length
          + (ks.map (fun k' => (l'.filter (fun x => key x == k')).length)).sum := by
            congr 1
            exact congrArg List.sum (List.map_congr_left fun k' hk' => by
              rw [hrest k' hk'])
      _ = (l.filter (fun x => key x == k)).length + l'.length := by rw [this]
      _ = l.length := hlen

/-! ### Order lemmas for the string comparison -/

theorem charListLt_irrefl : ∀ cs : List Char, charListLt cs cs = false
  | [] => rfl
  | c :: cs => by simp [charListLt, charListLt_irrefl cs]

theorem charListLt_trans :
    ∀ {as bs cs : List Char}, charListLt as bs = true →
      charListLt bs cs = true → charListLt as cs = true := by
  intro as
  induction as with
  | nil =>
      intro bs cs h1 h2
      cases bs with
      | nil => exact absurd h1 (by simp [charListLt])
      | cons b bs =>
          cases cs with
          | nil => exact absurd h2 (by simp [charListLt])
          | cons c cs => simp [charListLt]
  | cons a as ih =>
      intro bs cs h1 h2
      cases bs with
      | nil => exact absurd h1 (by simp [charListLt])
      | cons b bs =>
          cases cs with
          | nil => exact absurd h2 (by simp [charListLt])
          | cons c cs =>
              simp only [charListLt, Bool.or_eq_true, Bool.and_eq_true,
                decide_eq_true_eq, beq_iff_eq] at h1 h2 ⊢
              rcases h1 with h1 | ⟨rfl, h1⟩
              · rcases h2 with h2 | ⟨rfl, h2⟩
                · exact Or.inl (lt_trans h1 h2)
                · exact Or.inl h1
              · rcases h2 with h2 | ⟨rfl, h2⟩
                · exact Or.inl h2
                · exact Or.inr ⟨rfl, ih h1 h2⟩

theorem charListLt_connex :
    ∀ {as bs : List Char}, as ≠ bs →
      charListLt as bs = true ∨ charListLt bs as = true := by
  intro as
  induction as with
  | nil =>
      intro bs h
      cases bs with
      | nil => exact absurd rfl h
      | cons b bs => exact Or.inl (by simp [charListLt])
  | cons a as ih =>
      intro bs h
      cases bs with
      | nil => exact Or.inr (by simp [charListLt])
      | cons b bs =>
          rcases lt_trichotomy a b with hab | rfl | hab
          · exact Or.inl (by simp [charListLt, hab])
          · have hne : as ≠ bs := by
              intro hteq; exact h (by rw [hteq])
            rcases ih hne with h' | h'
            · exact Or.inl (by simp [charListLt, h'])
            · exact Or.inr (by simp [charListLt, h'])
          · exact Or.inr (by simp [charListLt, hab])

theorem strLt_irrefl (a : String) : strLt a a = false := charListLt_irrefl a.data

theorem strLt_asymm {a b : String} (h1 : strLt a b = true)
    (h2 : strLt b a = true) : False := by
  have := charListLt_trans h1 h2
  rw [charListLt_irrefl] at this
  cases this

theorem strLt_trans {a b c : String} (h1 : strLt a b = true)
    (h2 : strLt b c = true) : strLt a c = true := charListLt_trans h1 h2

theorem strLt_connex {a b : String} (h : a ≠ b) :
    strLt a b = true ∨ strLt b a = true :=
  charListLt_connex (fun hd => h (String.ext hd))

theorem strLt_ne {a b : String} (h : strLt a b = true) : a ≠ b := by
  rintro rfl
  rw [strLt_irrefl] at h
  cases h

theorem strLe_total (a b : String) : (strLe a b || strLe b a) = true := by
  by_cases h : a = b
  · subst h; simp [strLe]
  · rcases strLt_connex h with h' | h' <;> simp [strLe, h']

theorem strLe_trans {a b c : String} (h1 : strLe a b = true)
    (h2 : strLe b c = true) : strLe a c = true := by
  simp only [strLe, Bool.or_eq_true, beq_iff_eq] at h1 h2 ⊢
  rcases h1 with h1 | rfl
  · rcases h2 with h2 | rfl
    · exact Or.inl (strLt_trans h1 h2)
    · exact Or.inl h1
  · exact h2

theorem strLt_of_strLe_ne {a b : String} (h : strLe a b = true) (hne : a ≠ b) :
    strLt a b = true := by
  simp only [strLe, Bool.or_eq_true, beq_iff_eq] at h
  rcases h with h | rfl
  · exact h
  · exact absurd rfl hne

theorem strLe_refl (a : String) : strLe a a = true := by simp [strLe]

theorem pairLe_total (a b : String × String) : (pairLe a b || pairLe b a) = true := by
  by_cases h : a.1 = b.1
  · have := strLe_total a.2 b.2
    rcases Bool.or_eq_true_iff.mp this with h' | h' <;>
      simp [pairLe, h, h']
  · rcases strLt_connex h with h' | h' <;> simp [pairLe, h']

theorem pairLe_trans {a b c : String × String} (h1 : pairLe a b = true)
    (h2 : pairLe b c = true) : pairLe a c = true := by
  simp only [pairLe, Bool.or_eq_true, Bool.and_eq_true, beq_iff_eq] at h1 h2 ⊢
  rcases h1 with h1 | ⟨e1, h1⟩
  · rcases h2 with h2 | ⟨e2, h2⟩
    · exact Or.inl (strLt_trans h1 h2)
    · exact Or.inl (e2 ▸ h1)
  · rcases h2 with h2 | ⟨e2, h2⟩
    · exact Or.inl (e1 ▸ h2)
    · exact Or.inr ⟨e1.trans e2, strLe_trans h1 h2⟩

/-! ### Claim C4: exception behaviour of the scorer -/

theorem sortkeyLe_total (a b : AggRecord) :
    (sortkeyLe a b || sortkeyLe b a) = true := by
  simp only [sortkeyLe, Bool.or_eq_true, decide_eq_true_eq]
  exact Nat.le_total _ _

theorem sortkeyLe_trans {a b c : AggRecord} (h1 : sortkeyLe a b = true)
    (h2 : sortkeyLe b c = true) : sortkeyLe a c = true := by
  simp only [sortkeyLe, decide_eq_true_eq] at *
  exact Nat.le_trans h1 h2

theorem canonLe_total (a b : TrendRecord) :
    (canonLe a b || canonLe b a) = true := by
  by_cases h : a.window = b.window
  · rcases le_total b.score a.score with h' | h' <;> simp [canonLe, h, h']
  · rcases strLt_connex h with h' | h' <;> simp [canonLe, h']

theorem canonLe_trans {a b c : TrendRecord} (h1 : canonLe a b = true)
    (h2 : canonLe b c = true) : canonLe a c = true := by
  simp only [canonLe, Bool.or_eq_true, Bool.and_eq_true, beq_iff_eq,
    decide_eq_true_eq] at h1 h2 ⊢
  rcases h1 with h1 | ⟨e1, s1⟩
  · rcases h2 with h2 | ⟨e2, s2⟩
    · exact Or.inl (strLt_trans h1 h2)
    · exact Or.inl (e2 ▸ h1)
  · rcases h2 with h2 | ⟨e2, s2⟩
    · exact Or.inl (e1 ▸ h2)
    · exact Or.inr ⟨e1.trans e2, le_trans s2 s1⟩

theorem scorerOrder_perm (psort : SortImpl) (hps : IsKeySort psort)
    (agg : List AggRecord) (h : String) :
    List.Perm (scorerOrder psort agg h)
      (agg.filter (fun r => r.hashtag == h)) :=
  (hps sortkeyLe sortkeyLe_total (fun _ _ _ => sortkeyLe_trans) _).1

/-- The empty record set always raises: `pd.DataFrame([])` has no
columns, so the canonical `sort_values` raises `KeyError`. -/
theorem compute_trend_scores_nil (log : ℚ → ℚ) (psort : SortImpl) :
    compute_trend_scores log psort [] = none := rfl

theorem compute_trend_scores_some (log : ℚ → ℚ) (psort : SortImpl)
    (hps : IsKeySort psort) (agg : List AggRecord) (hne : agg ≠ [])
    (h : ∀ r ∈ agg, r.mentionsSum ≠ -1) :
    ∃ out, compute_trend_scores log psort agg = some out ∧
      out.length = agg.length := by
  have hgrp : ∀ k, scoreGroup log none (scorerOrder psort agg k)
      = some (scoreGroupT log none (scorerOrder psort agg k)) := by
    intro k
    refine scoreGroup_eq_some log _ none (by simp) ?_
    intro r hr
    exact h r (List.mem_filter.mp
      ((scorerOrder_perm psort hps agg k).mem_iff.mp hr)).1
  have hlen : ((sortLe strLe ((agg.map (fun r => r.hashtag)).dedup)).map
      (fun k => scoreGroupT log none (scorerOrder psort agg k))).flatten.length
      = agg.length := by
    rw [List.length_flatten, List.map_map]
    have hcong : (sortLe strLe ((agg.map (fun r => r.hashtag)).dedup)).map
        (List.length ∘ fun k => scoreGroupT log none (scorerOrder psort agg k))
        = (sortLe strLe ((agg.map (fun r => r.hashtag)).dedup)).map
            (fun k => (agg.filter (fun r => r.hashtag == k)).length) := by
      refine List.map_congr_left fun k _ => ?_
      simp only [Function.comp, scoreGroupT_length]
      exact (scorerOrder_perm psort hps agg k).length_eq
    rw [hcong]
    refine length_filter_partition (fun r => r.hashtag) _ ?_ agg ?_
    · exact (sortLe_perm _ _).nodup_iff.mpr (List.nodup_dedup _)
    · intro x hx
      exact mem_sortLe.mpr (List.mem_dedup.mpr (List.mem_map_of_mem _ hx))
  have hflat : ((sortLe strLe ((agg.map (fun r => r.hashtag)).dedup)).map
      (fun k => scoreGroupT log none (scorerOrder psort agg k))).flatten
      ≠ [] := by
    intro hnil
    rw [hnil] at hlen
    exact hne (List.length_eq_zero.mp hlen.symm)
  refine ⟨psort canonLe
    ((sortLe strLe ((agg.map (fun r => r.hashtag)).dedup)).map
      (fun k => scoreGroupT log none (scorerOrder psort agg k))).flatten,
    ?_, ?_⟩
  · simp only [compute_trend_scores]
    rw [mapO_some (fun k _ => hgrp k)]
    exact if_neg hflat
  · rw [(hps canonLe canonLe_total (fun _ _ _ => canonLe_trans) _).1.length_eq]
    exact hlen

/-- C4 is false as stated: on an Aggregated Window Record set whose
chronologically first window of a hashtag has `mentions_sum = -1`, the
growth division `(mentions - prev) / (prev + 1.0)` divides by zero on the
next window; the `try` guards only the score line, so the
`ZeroDivisionError` propagates to the caller and no record set is
produced.  (The model is instantiated at the stable sort; the exception
fires before any sorting, so any admissible implementation agrees.) -/
theorem C4_counterexample :
    compute_trend_scores (fun _ => 0) (fun {α} => sortLe)
      [⟨"h", "2024-01", -1, 0, 0, 1⟩, ⟨"h", "2024-02", 5, 0, 0, 1⟩]
      = none := by
  decide

/-- C4 (amended): provided the record set is non-empty (an empty one
makes the final `sort_values` raise `KeyError` on the column-less empty
frame) and no record carries `mentions_sum = -1` (the one value whose
growth denominator is zero), the scorer raises nothing and produces
exactly one Trend Score Record per input record; and whenever the
logarithm is undefined (`reach + 1 ≤ 0`) the record's score is the
growth value alone. -/
theorem C4_no_raise_amended (log : ℚ → ℚ) (psort : SortImpl)
    (hps : IsKeySort psort) (agg : List AggRecord) (hne : agg ≠ [])
    (h : ∀ r ∈ agg, r.mentionsSum ≠ -1) :
    (∃ out, compute_trend_scores log psort agg = some out ∧
      out.length = agg.length) ∧
    (∀ (prev : Option Int) (r : AggRecord), (r.reachSum : ℚ) + 1 ≤ 0 →
      (scoreOne log prev r).score = specGrowth prev r.mentionsSum) := by
  refine ⟨compute_trend_scores_some log psort hps agg hne h, ?_⟩
  intro prev r hr
  rw [scoreOne, scoreOf, if_pos hr]

/-- Witness for `C4_no_raise_amended` at a concrete record set. -/
theorem C4_no_raise_amended_witness :
    (∃ out, compute_trend_scores (fun _ => 0) (fun {α} => sortLe)
        [⟨"h", "2024-01", 3, -2, 0, 1⟩] = some out ∧ out.length = 1) ∧
    (scoreOne (fun _ => (0 : ℚ)) none ⟨"h", "2024-01", 3, -2, 0, 1⟩).score
      = specGrowth none 3 :=
  ⟨(C4_no_raise_amended (fun _ => 0) (fun {α} => sortLe) isKeySort_sortLe
      [⟨"h", "2024-01", 3, -2, 0, 1⟩] (by decide) (by decide)).1,
   (C4_no_raise_amended (fun _ => 0) (fun {α} => sortLe) isKeySort_sortLe
      [⟨"h", "2024-01", 3, -2, 0, 1⟩] (by decide) (by decide)).2 none _
      (by norm_num)⟩

/-! ### Claim C8: the aggregator -/


/-- C8: `aggregate` emits exactly one record per distinct
`(hashtag, window)` pair of the input (no duplicates, and a pair appears
iff some row carries it), and each record holds the group's sums, its
unweighted mean sentiment and its cardinality, which is at least 1. -/
theorem C8_aggregate (rows : List RawRow) :
    ((aggregate rows).map (fun rec => (rec.hashtag, rec.window))).Nodup ∧
    (∀ h w, (h, w) ∈ (aggregate rows).map (fun rec => (rec.hashtag, rec.window))
      ↔ ∃ row ∈ rows, row.hashtag = h ∧ row.window = w) ∧
    (∀ rec ∈ aggregate rows,
      rec.mentionsSum = ((rows.filter (fun r =>
          r.hashtag == rec.hashtag && r.window == rec.window)).map
            (fun r => r.mentions)).sum ∧
      rec.reachSum = ((rows.filter (fun r =>
          r.hashtag == rec.hashtag && r.window == rec.window)).map
            (fun r => r.estimated_reach)).sum ∧
      rec.sentimentAvg = ((rows.filter (fun r =>
          r.hashtag == rec.hashtag && r.window == rec.window)).map
            (fun r => r.sentiment_score)).sum /
          (((rows.filter (fun r =>
            r.hashtag == rec.hashtag && r.window == rec.window)).length : ℚ)) ∧
      rec.rowsCount = (rows.filter (fun r =>
          r.hashtag == rec.hashtag && r.window == rec.window)).length ∧
      1 ≤ rec.rowsCount) := by
  have hmap : (aggregate rows).map (fun rec => (rec.hashtag, rec.window))
      = sortLe pairLe ((rows.map rowKey).dedup) := by
    rw [aggregate, List.map_map]
    exact List.map_congr_left (fun k _ => rfl) |>.trans (List.map_id _)
  refine ⟨?_, fun h w => ?_, fun rec hrec => ?_⟩
  · rw [hmap]
    exact (sortLe_perm _ _).nodup_iff.mpr (List.nodup_dedup _)
  · rw [hmap]
    rw [mem_sortLe, List.mem_dedup, List.mem_map]
    constructor
    · rintro ⟨row, hrow, hk⟩
      rw [rowKey] at hk
      exact ⟨row, hrow, congrArg Prod.fst hk, congrArg Prod.snd hk⟩
    · rintro ⟨row, hrow, h1, h2⟩
      exact ⟨row, hrow, by rw [rowKey, h1, h2]⟩
  · rw [aggregate] at hrec
    rcases List.mem_map.mp hrec with ⟨k, hk, rfl⟩
    refine ⟨rfl, rfl, rfl, rfl, ?_⟩
    rcases List.mem_map.mp (List.mem_dedup.mp (mem_sortLe.mp hk))
      with ⟨row, hrow, rfl⟩
    have hmem : row ∈ rows.filter (fun r =>
        r.hashtag == (rowKey row).1 && r.window == (rowKey row).2) := by
      rw [List.mem_filter]
      exact ⟨hrow, by simp [rowKey]⟩
    simpa using List.length_pos.mpr (List.ne_nil_of_mem hmem)

/-- Witness for `C8_aggregate` at a concrete two-row group. -/
theorem C8_aggregate_witness :
    ("a", "2024-01") ∈ (aggregate
      [⟨"a", "2024-01", 3, 4, 1/2⟩, ⟨"a", "2024-01", 5, 6, 1/2⟩]).map
        (fun rec => (rec.hashtag, rec.window)) ∧
    1 ≤ (⟨"a", "2024-01", 8, 10, 1/2, 2⟩ : AggRecord).rowsCount := by
  have hagg : aggregate [⟨"a", "2024-01", 3, 4, 1/2⟩, ⟨"a", "2024-01", 5, 6, 1/2⟩]
      = [⟨"a", "2024-01", 8, 10, 1/2, 2⟩] := by
    simp only [aggregate, rowKey, List.map, List.dedup]
    norm_num [sortLe, insertLe, pairLe, List.filter, AggRecord.mk.injEq]
  refine ⟨(C8_aggregate _).2.1 "a" "2024-01" |>.mpr
      ⟨⟨"a", "2024-01", 3, 4, 1/2⟩, by simp, rfl, rfl⟩, ?_⟩
  exact ((C8_aggregate _).2.2 _
    (by rw [hagg]; exact List.mem_cons_self _ _)).2.2.2.2

/-! ### Claim C2: deterministic per-hashtag processing order -/

/-- Sortkey ascending with ties broken by the window string ascending —
the order the spec asserts for per-hashtag processing. -/
def lexWindowLe (a b : AggRecord) : Bool :=
  decide (window_to_sortkey a.window < window_to_sortkey b.window) ||
    (decide (window_to_sortkey a.window = window_to_sortkey b.window) &&
      strLe a.window b.window)

theorem sortLe_sortkey_eq_lex {l : List AggRecord}
    (hl : l.Pairwise (fun a b => strLe a.window b.window = true)) :
    sortLe sortkeyLe l = sortLe lexWindowLe l := by
  induction l with
  | nil => rfl
  | cons x xs ih =>
      rcases List.pairwise_cons.mp hl with ⟨hx, hxs⟩
      rw [sortLe, sortLe, ih hxs]
      refine insertLe_congr fun b hb => ?_
      have hw : strLe x.window b.window = true := hx b (mem_sortLe.mp hb)
      simp only [sortkeyLe, lexWindowLe, hw, Bool.and_true]
      rcases Nat.lt_trichotomy (window_to_sortkey x.window)
        (window_to_sortkey b.window) with h | h | h
      · simp [h, Nat.le_of_lt h]
      · simp [h]
      · simp [Nat.not_le_of_lt h, Nat.lt_asymm h, Nat.ne_of_gt h]

theorem aggregate_group_windows_sorted (rows : List RawRow) (h : String) :
    ((aggregate rows).filter (fun r => r.hashtag == h)).Pairwise
      (fun a b => strLe a.window b.window = true) := by
  rw [aggregate, List.filter_map, List.pairwise_map]
  have hks : (sortLe pairLe ((rows.map rowKey).dedup)).Pairwise
      (fun a b => pairLe a b = true) :=
    pairwise_sortLe pairLe_total (fun _ _ _ => pairLe_trans) _
  refine (List.Pairwise.sublist (List.filter_sublist _) hks).imp_of_mem ?_
  intro a b ha hb hab
  have ha1 : a.1 = h := by simpa [Function.comp] using (List.mem_filter.mp ha).2
  have hb1 : b.1 = h := by simpa [Function.comp] using (List.mem_filter.mp hb).2
  show strLe a.2 b.2 = true
  simp only [pairLe, Bool.or_eq_true, Bool.and_eq_true, beq_iff_eq] at hab
  rcases hab with hab | ⟨-, hab⟩
  · rw [ha1, hb1] at hab
    rw [strLt_irrefl] at hab
    cases hab
  · exact hab

/-- Under a stable implementation of the `_sort` sort (such as `sortLe`),
the per-hashtag order on the aggregator's output is the
`(sortkey, window-string)` lexicographic order: ties broken by the
window-key string ascending.  pandas' actual default quicksort gives no
tie guarantee, so this holds for the stable instantiation only; the
unstable default leaves the tie order implementation-defined. -/
theorem stable_sort_window_tiebreak (rows : List RawRow) (h : String) :
    sortLe sortkeyLe ((aggregate rows).filter (fun r => r.hashtag == h)) =
      sortLe lexWindowLe ((aggregate rows).filter (fun r => r.hashtag == h)) :=
  sortLe_sortkey_eq_lex (aggregate_group_windows_sorted rows h)

/-! ### Claim C5: ISO week-year boundary behaviour of the week keys -/

theorem daysBeforeMonth_one (y : Nat) : daysBeforeMonth y 1 = 0 := by
  norm_num [daysBeforeMonth]

theorem isLeap_iff {y : Nat} :
    isLeap y = true ↔ y % 4 = 0 ∧ (y % 100 ≠ 0 ∨ y % 400 = 0) := by
  simp [isLeap, Bool.and_eq_true, Bool.or_eq_true, beq_iff_eq, bne_iff_ne]

set_option maxHeartbeats 1000000 in
theorem rataDie_jan1_succ {y : Nat} (hy : 2 ≤ y) :
    rataDie y 1 1
      = rataDie (y - 1) 1 1 + 365 + (if isLeap (y - 1) then 1 else 0) := by
  by_cases hl : isLeap (y - 1) = true
  · rw [if_pos hl]
    rw [isLeap_iff] at hl
    unfold rataDie
    rw [daysBeforeMonth_one, daysBeforeMonth_one]
    omega
  · rw [if_neg hl]
    have hl' : ¬((y - 1) % 4 = 0 ∧ ((y - 1) % 100 ≠ 0 ∨ (y - 1) % 400 = 0)) := by
      rw [← isLeap_iff]
      simpa using hl
    clear hl
    unfold rataDie
    rw [daysBeforeMonth_one, daysBeforeMonth_one]
    omega

theorem isoWeeksInYear_eq (x : Nat) :
    isoWeeksInYear x =
      if rataDie x 1 1 % 7 = 4 ∨ (rataDie x 1 1 % 7 = 3 ∧ isLeap x = true)
      then 53 else 52 := by
  unfold isoWeeksInYear isLongIsoYear
  by_cases h4 : rataDie x 1 1 % 7 = 4 <;>
    by_cases h3 : rataDie x 1 1 % 7 = 3 <;>
    by_cases hl : isLeap x = true <;>
    simp [h4, h3, hl]

theorem week1monday_succ {y : Nat} (hy : 2 ≤ y) :
    week1monday y = week1monday (y - 1) + 7 * isoWeeksInYear (y - 1) := by
  have hj := rataDie_jan1_succ hy
  have ha : 1 ≤ rataDie (y - 1) 1 1 := by unfold rataDie; omega
  rw [isoWeeksInYear_eq]
  unfold week1monday
  by_cases hl : isLeap (y - 1) = true
  · rw [if_pos hl] at hj
    simp only [hl, and_true]
    split_ifs <;> omega
  · rw [if_neg hl] at hj
    have hl' : isLeap (y - 1) = true ↔ False := by simp [hl]
    simp only [hl', and_false, or_false]
    split_ifs <;> omega

theorem week1monday_le_jan1_add3 (y : Nat) :
    week1monday y ≤ rataDie y 1 1 + 3 := by
  unfold week1monday
  split <;> omega

theorem rataDie_ge_jan1 {y m d : Nat} (hd : 1 ≤ d) :
    rataDie y 1 1 ≤ rataDie y m d := by
  unfold rataDie
  rw [daysBeforeMonth_one]
  have : 0 ≤ daysBeforeMonth y m := Nat.zero_le _
  omega

theorem isoWeeksInYear_ge (y : Nat) : 52 ≤ isoWeeksInYear y := by
  unfold isoWeeksInYear
  split <;> omega

theorem isoCalendar_prev_year {y m d : Nat} (hv : validDate y m d)
    (h : (isoCalendar y m d).1 < y) :
    (isoCalendar y m d).1 = y - 1 ∧
      (isoCalendar y m d).2 = isoWeeksInYear (y - 1) := by
  obtain ⟨hy1, hy2, hm1, hm2, hd1, hd2⟩ := hv
  by_cases hlt : rataDie y m d < week1monday y
  case neg =>
    exfalso
    by_cases hc2 : (decide (52 ≤ (rataDie y m d - week1monday y) / 7) &&
        decide (week1monday (y + 1) ≤ rataDie y m d)) = true
    · have he : isoCalendar y m d = (y + 1, 1) := by
        simp only [isoCalendar, if_neg hlt, if_pos hc2]
      rw [he] at h
      omega
    · have he : isoCalendar y m d
          = (y, (rataDie y m d - week1monday y) / 7 + 1) := by
        simp only [isoCalendar, if_neg hlt, if_neg hc2]
      rw [he] at h
      omega
  case pos =>
    have he : isoCalendar y m d
        = (y - 1, (rataDie y m d - week1monday (y - 1)) / 7 + 1) := by
      simp only [isoCalendar, if_pos hlt]
    have hy2' : 2 ≤ y := by
      by_contra hy
      have hy1' : y = 1 := by omega
      subst hy1'
      have h1 : week1monday 1 = 1 := by decide
      have h2 : 1 ≤ rataDie 1 m d := by unfold rataDie; omega
      omega
    have hsucc := week1monday_succ hy2'
    have hle := week1monday_le_jan1_add3 y
    have hge := @rataDie_ge_jan1 y m d hd1
    have hW := isoWeeksInYear_ge (y - 1)
    have hpos := week1monday_pos (y - 1)
    rw [he]
    exact ⟨rfl, by omega⟩

/-- C5: week-key derivation uses the ISO 8601 week-year.  Whenever a
date's ISO calendar year is smaller than its calendar year, it equals the
previous year and the ISO week is that previous ISO year's final week
number, and the derived `YYYY-Www` key carries them; in particular
2023-01-01 derives the key `2022-W52`. -/
theorem C5_iso_week_year :
    (∀ y m d, validDate y m d → (isoCalendar y m d).1 < y →
      (isoCalendar y m d).1 = y - 1 ∧
      (isoCalendar y m d).2 = isoWeeksInYear (y - 1) ∧
      make_window_col Window.week y m d
        = week_key (y - 1) (isoWeeksInYear (y - 1))) ∧
    make_window_col Window.week 2023 1 1 = "2022-W52" := by
  refine ⟨fun y m d hv h => ?_, by decide⟩
  obtain ⟨h1, h2⟩ := isoCalendar_prev_year hv h
  refine ⟨h1, h2, ?_⟩
  simp only [make_window_col]
  rw [h1, h2]

/-- Witness for `C5_iso_week_year` at the spec's boundary example. -/
theorem C5_iso_week_year_witness :
    (isoCalendar 2023 1 1).1 = 2022 ∧
    (isoCalendar 2023 1 1).2 = isoWeeksInYear 2022 := by
  obtain ⟨h1, h2, -⟩ := C5_iso_week_year.1 2023 1 1 (by decide) (by decide)
  exact ⟨h1, h2⟩

/-! ### Claims C6 and C10: the top-K selector -/

theorem scoreDescLe_total (a b : TrendRecord) :
    (scoreDescLe a b || scoreDescLe b a) = true := by
  simp only [scoreDescLe, Bool.or_eq_true, decide_eq_true_eq]
  exact le_total b.score a.score

theorem scoreDescLe_trans {a b c : TrendRecord} (h1 : scoreDescLe a b = true)
    (h2 : scoreDescLe b c = true) : scoreDescLe a c = true := by
  simp only [scoreDescLe, decide_eq_true_eq] at *
  exact le_trans h2 h1

theorem psort_score_perm (psort : SortImpl) (hps : IsKeySort psort)
    (l : List TrendRecord) : List.Perm (psort scoreDescLe l) l :=
  (hps scoreDescLe scoreDescLe_total (fun _ _ _ => scoreDescLe_trans) l).1

theorem psort_score_sorted (psort : SortImpl) (hps : IsKeySort psort)
    (l : List TrendRecord) :
    (psort scoreDescLe l).Pairwise (fun a b => scoreDescLe a b = true) :=
  (hps scoreDescLe scoreDescLe_total (fun _ _ _ => scoreDescLe_trans) l).2

theorem psort_canon_perm (psort : SortImpl) (hps : IsKeySort psort)
    (l : List TrendRecord) : List.Perm (psort canonLe l) l :=
  (hps canonLe canonLe_total (fun _ _ _ => canonLe_trans) l).1

theorem psort_canon_sorted (psort : SortImpl) (hps : IsKeySort psort)
    (l : List TrendRecord) :
    (psort canonLe l).Pairwise (fun a b => canonLe a b = true) :=
  (hps canonLe canonLe_total (fun _ _ _ => canonLe_trans) l).2

theorem windowKeys_nodup (trend : List TrendRecord) :
    (windowKeys trend).Nodup := by
  rw [windowKeys]
  exact (sortLe_perm _ _).nodup_iff.mpr (List.nodup_dedup _)

theorem mem_windowKeys {trend : List TrendRecord} {r : TrendRecord}
    (hr : r ∈ trend) : r.window ∈ windowKeys trend := by
  rw [windowKeys]
  exact mem_sortLe.mpr (List.mem_dedup.mpr (List.mem_map_of_mem _ hr))

/-- `head(k)` of the per-window sort, expressed as a `take` whose count
refers to the candidate list's length. -/
theorem topkGroup_eq_take (psort : SortImpl) (hps : IsKeySort psort)
    (trend : List TrendRecord) (k : Int) (w : String) :
    topkGroup psort trend k w
      = (psort scoreDescLe (trend.filter (fun r => r.window == w))).take
          (if 0 ≤ k then k.toNat
           else (trend.filter (fun r => r.window == w)).length - (-k).toNat) := by
  have hlen := (psort_score_perm psort hps
    (trend.filter (fun r => r.window == w))).length_eq
  by_cases hk : 0 ≤ k
  · rw [topkGroup, pandasHead, if_pos hk, if_pos hk]
  · rw [topkGroup, pandasHead, if_neg hk, if_neg hk, hlen]

theorem topkGroup_length (psort : SortImpl) (hps : IsKeySort psort)
    (trend : List TrendRecord) (k : Int) (w : String) :
    (topkGroup psort trend k w).length
      = min (if 0 ≤ k then k.toNat
             else (trend.filter (fun r => r.window == w)).length - (-k).toNat)
          (trend.filter (fun r => r.window == w)).length := by
  rw [topkGroup_eq_take psort hps, List.length_take,
    (psort_score_perm psort hps _).length_eq]

theorem mem_topkGroup {psort : SortImpl} (hps : IsKeySort psort)
    {trend : List TrendRecord} {k : Int} {w : String} {r : TrendRecord}
    (h : r ∈ topkGroup psort trend k w) : r.window = w := by
  rw [topkGroup_eq_take psort hps] at h
  have h1 : r ∈ psort scoreDescLe (trend.filter (fun r => r.window == w)) :=
    (List.take_sublist _ _).subset h
  have h2 := List.mem_filter.mp ((psort_score_perm psort hps _).mem_iff.mp h1)
  simpa using h2.2

theorem filter_flatten_key {keys : List String} (hnd : keys.Nodup)
    (G : String → List TrendRecord) (hG : ∀ k', ∀ r ∈ G k', r.window = k')
    {w : String} (hw : w ∈ keys) :
    ((keys.map G).flatten).filter (fun r => r.window == w) = G w := by
  induction keys with
  | nil => cases hw
  | cons k ks ih =>
      rw [List.map_cons, List.flatten_cons, List.filter_append]
      rcases List.nodup_cons.mp hnd with ⟨hk, hks⟩
      rcases List.mem_cons.mp hw with rfl | hw'
      · have h1 : (G w).filter (fun r => r.window == w) = G w :=
          List.filter_eq_self.mpr (fun r hr => by simp [hG w r hr])
        have h2 : ((ks.map G).flatten).filter (fun r => r.window == w) = [] := by
          rw [List.filter_eq_nil_iff]
          intro r hr
          rcases List.mem_flatten.mp hr with ⟨l, hl, hrl⟩
          rcases List.mem_map.mp hl with ⟨k', hk', rfl⟩
          have hrw := hG k' r hrl
          simp only [hrw, beq_iff_eq]
          rintro rfl
          exact hk hk'
        rw [h1, h2, List.append_nil]
      · have hkw : k ≠ w := by rintro rfl; exact hk hw'
        have h1 : (G k).filter (fun r => r.window == w) = [] := by
          rw [List.filter_eq_nil_iff]
          intro r hr
          simp [hG k r hr, hkw]
        rw [h1, List.nil_append, ih hks hw']

theorem topkRows_filter (psort : SortImpl) (hps : IsKeySort psort)
    (trend : List TrendRecord) (k : Int) (w : String) :
    (topkRows psort trend k).filter (fun r => r.window == w)
      = topkGroup psort trend k w := by
  rw [topkRows]
  by_cases hw : w ∈ windowKeys trend
  · exact filter_flatten_key (windowKeys_nodup trend) _
      (fun k' r hr => mem_topkGroup hps hr) hw
  · have hnone : trend.filter (fun r => r.window == w) = [] := by
      rw [List.filter_eq_nil_iff]
      intro r hr hbeq
      have hrw : r.window = w := by simpa using hbeq
      exact hw (hrw ▸ mem_windowKeys hr)
    have hG : topkGroup psort trend k w = [] := by
      rw [topkGroup_eq_take psort hps, hnone]
      rw [(psort_score_perm psort hps []).eq_nil]
      simp
    rw [hG, List.filter_eq_nil_iff]
    intro r hr hbeq
    rcases List.mem_flatten.mp hr with ⟨l, hl, hrl⟩
    rcases List.mem_map.mp hl with ⟨k', hk', rfl⟩
    have hrw := mem_topkGroup hps hrl
    have hkw : k' = w := by
      have hw' : r.window = w := by simpa using hbeq
      rw [hrw] at hw'
      exact hw'
    exact hw (hkw ▸ hk')

theorem topk_some (psort : SortImpl) (trend : List TrendRecord) (k : Int)
    (hne : topkRows psort trend k ≠ []) :
    topk_per_window psort trend k
      = some (psort canonLe (topkRows psort trend k)) := by
  rw [topk_per_window, if_neg hne]

theorem topk_out_filter_perm (psort : SortImpl) (hps : IsKeySort psort)
    (trend : List TrendRecord) (k : Int) (w : String) :
    List.Perm ((psort canonLe (topkRows psort trend k)).filter
        (fun r => r.window == w))
      (topkGroup psort trend k w) := by
  have h1 := (psort_canon_perm psort hps (topkRows psort trend k)).filter
    (fun r => r.window == w)
  rw [topkRows_filter psort hps] at h1
  exact h1

theorem topk_out_filter_sorted (psort : SortImpl) (hps : IsKeySort psort)
    (trend : List TrendRecord) (k : Int) (w : String) :
    ((psort canonLe (topkRows psort trend k)).filter
        (fun r => r.window == w)).Pairwise (fun a b => b.score ≤ a.score) := by
  have hsub : ((psort canonLe (topkRows psort trend k)).filter
      (fun r => r.window == w)).Pairwise (fun a b => canonLe a b = true) :=
    List.Pairwise.sublist (List.filter_sublist _)
      (psort_canon_sorted psort hps (topkRows psort trend k))
  refine hsub.imp_of_mem ?_
  intro a b ha hb hab
  have haw : a.window = w := by simpa using (List.mem_filter.mp ha).2
  have hbw : b.window = w := by simpa using (List.mem_filter.mp hb).2
  simp only [canonLe, haw, hbw, strLt_irrefl, beq_self_eq_true, Bool.false_or,
    Bool.true_and, decide_eq_true_eq] at hab
  exact hab

theorem sorted_take_drop_le {l : List TrendRecord}
    (hl : l.Pairwise (fun a b => scoreDescLe a b = true)) (m : Nat) :
    ∀ r ∈ l.take m, ∀ r' ∈ l.drop m, r'.score ≤ r.score := by
  rw [← List.take_append_drop m l] at hl
  rcases List.pairwise_append.mp hl with ⟨-, -, hcross⟩
  intro r hr r' hr'
  have := hcross r hr r' hr'
  simpa [scoreDescLe] using this

/-- Each window's slice of the output is a top multiset: a permutation of
`min`-many candidates each scoring at least every omitted candidate. -/
theorem topk_top_multiset (psort : SortImpl) (hps : IsKeySort psort)
    (trend : List TrendRecord) (k : Int) (w : String) :
    ∃ dropped,
      List.Perm (trend.filter (fun r => r.window == w))
        (((psort canonLe (topkRows psort trend k)).filter
          (fun r => r.window == w)) ++ dropped) ∧
      ∀ r ∈ (psort canonLe (topkRows psort trend k)).filter
          (fun r => r.window == w),
        ∀ r' ∈ dropped, r'.score ≤ r.score := by
  have hout : List.Perm ((psort canonLe (topkRows psort trend k)).filter
      (fun r => r.window == w))
      ((psort scoreDescLe (trend.filter (fun r => r.window == w))).take
        (if 0 ≤ k then k.toNat
         else (trend.filter (fun r => r.window == w)).length - (-k).toNat)) := by
    have h1 := topk_out_filter_perm psort hps trend k w
    rw [topkGroup_eq_take psort hps] at h1
    exact h1
  refine ⟨(psort scoreDescLe (trend.filter (fun r => r.window == w))).drop
    (if 0 ≤ k then k.toNat
     else (trend.filter (fun r => r.window == w)).length - (-k).toNat), ?_, ?_⟩
  · have hperm1 : List.Perm (trend.filter (fun r => r.window == w))
        ((psort scoreDescLe (trend.filter (fun r => r.window == w))).take
          (if 0 ≤ k then k.toNat
           else (trend.filter (fun r => r.window == w)).length - (-k).toNat) ++
         (psort scoreDescLe (trend.filter (fun r => r.window == w))).drop
          (if 0 ≤ k then k.toNat
           else (trend.filter (fun r => r.window == w)).length - (-k).toNat)) := by
      rw [List.take_append_drop]
      exact (psort_score_perm psort hps _).symm
    exact hperm1.trans (List.Perm.append_right _ hout.symm)
  · intro r hr r' hr'
    exact sorted_take_drop_le (psort_score_sorted psort hps _) _ r
      (hout.mem_iff.mp hr) r' hr'

theorem topkRows_ne_nil_of_group (psort : SortImpl)
    {trend : List TrendRecord} {k : Int} {w : String}
    (hw : w ∈ windowKeys trend) (hG : topkGroup psort trend k w ≠ []) :
    topkRows psort trend k ≠ [] := by
  obtain ⟨x, hx⟩ := List.exists_mem_of_ne_nil _ hG
  intro hnil
  have hmem : x ∈ topkRows psort trend k := by
    rw [topkRows]
    exact List.mem_flatten.mpr ⟨topkGroup psort trend k w,
      List.mem_map.mpr ⟨w, hw, rfl⟩, hx⟩
  rw [hnil] at hmem
  exact absurd hmem (by simp)

theorem topkRows_ne_nil_pos (psort : SortImpl) (hps : IsKeySort psort)
    (trend : List TrendRecord) (k : Int) (hk : 1 ≤ k) (hne : trend ≠ []) :
    topkRows psort trend k ≠ [] := by
  obtain ⟨r, hr⟩ := List.exists_mem_of_ne_nil trend hne
  refine topkRows_ne_nil_of_group psort (mem_windowKeys hr) ?_
  have hcand : 0 < (trend.filter (fun x => x.window == r.window)).length :=
    List.length_pos.mpr (List.ne_nil_of_mem
      (List.mem_filter.mpr ⟨hr, by simp⟩))
  intro h0
  have := topkGroup_length psort hps trend k r.window
  rw [h0, if_pos (by omega : (0:Int) ≤ k)] at this
  have hk1 : 1 ≤ k.toNat := by omega
  simp only [List.length_nil] at this
  omega

theorem topkRows_ne_nil_neg (psort : SortImpl) (hps : IsKeySort psort)
    (trend : List TrendRecord) (k : Int) (hk : k < 0)
    (hex : ∃ r ∈ trend, (-k).toNat
      < (trend.filter (fun x => x.window == r.window)).length) :
    topkRows psort trend k ≠ [] := by
  obtain ⟨r, hr, hcount⟩ := hex
  refine topkRows_ne_nil_of_group psort (mem_windowKeys hr) ?_
  intro h0
  have := topkGroup_length psort hps trend k r.window
  rw [h0, if_neg (by omega : ¬((0:Int) ≤ k))] at this
  simp only [List.length_nil] at this
  omega

/-- `K = 0` always raises: every per-window head is empty, so the output
frame has no columns and `sort_values` raises `KeyError`. -/
theorem topk_zero_none (psort : SortImpl) (trend : List TrendRecord) :
    topk_per_window psort trend 0 = none := by
  have h0 : topkRows psort trend 0 = [] := by
    rw [topkRows, List.flatten_eq_nil_iff]
    intro l hl
    rcases List.mem_map.mp hl with ⟨w, -, rfl⟩
    rw [topkGroup, pandasHead]
    simp
  rw [topk_per_window, if_pos h0]

/-- An empty Trend Score Record set always raises, for any `K`. -/
theorem topk_nil_none (psort : SortImpl) (k : Int) :
    topk_per_window psort [] k = none := by
  rw [topk_per_window, if_pos (show topkRows psort [] k = [] from rfl)]

/-- C6 is false as stated: `K = 0` does not yield an empty per-window
result — `head(0)` leaves `out_rows` empty on every input,
`pd.DataFrame([])` then has no columns, and
`sort_values(["window", "score"])` raises `KeyError`.  (Instantiated at
the stable sort; the empty-output test does not depend on tie order.) -/
theorem C6_counterexample :
    topk_per_window (fun {α} => sortLe)
      [⟨"A", "2024-01", 5, 1, 1, 0, 1⟩] 0 = none := by
  decide

/-- C6 (amended): for `K ≥ 1` and a non-empty Trend Score Record set the
selector returns a result; each window with `n` candidates contributes
exactly `min(K, n)` records in descending-score order whose scores are at
least those of every omitted candidate of that window — which of several
boundary-tied candidates is kept, and the order among equal scores, are
implementation-defined, because `sort_values`' default quicksort is not
stable; a window with `n ≤ K` contributes all its candidates.  `K = 0`
instead raises `KeyError` on the column-less empty output frame. -/
theorem C6_topk_amended (psort : SortImpl) (hps : IsKeySort psort)
    (trend : List TrendRecord) (k : Int) (hk : 1 ≤ k) (hne : trend ≠ []) :
    (∃ out, topk_per_window psort trend k = some out ∧
      ∀ w : String,
        (out.filter (fun r => r.window == w)).length
          = min k.toNat (trend.filter (fun r => r.window == w)).length ∧
        (out.filter (fun r => r.window == w)).Pairwise
          (fun a b => b.score ≤ a.score) ∧
        (∃ dropped,
          List.Perm (trend.filter (fun r => r.window == w))
            (out.filter (fun r => r.window == w) ++ dropped) ∧
          ∀ r ∈ out.filter (fun r => r.window == w), ∀ r' ∈ dropped,
            r'.score ≤ r.score) ∧
        ((trend.filter (fun r => r.window == w)).length ≤ k.toNat →
          List.Perm (out.filter (fun r => r.window == w))
            (trend.filter (fun r => r.window == w)))) ∧
    topk_per_window psort trend 0 = none := by
  constructor
  · refine ⟨psort canonLe (topkRows psort trend k),
      topk_some psort trend k (topkRows_ne_nil_pos psort hps trend k hk hne),
      ?_⟩
    intro w
    have hk0 : (0:Int) ≤ k := by omega
    refine ⟨?_, topk_out_filter_sorted psort hps trend k w,
      topk_top_multiset psort hps trend k w, ?_⟩
    · rw [(topk_out_filter_perm psort hps trend k w).length_eq,
        topkGroup_length psort hps, if_pos hk0]
    · intro hlen
      have h1 := topk_out_filter_perm psort hps trend k w
      rw [topkGroup_eq_take psort hps, if_pos hk0,
        List.take_of_length_le] at h1
      · exact h1.trans (psort_score_perm psort hps _)
      · rw [(psort_score_perm psort hps _).length_eq]
        exact hlen
  · exact topk_zero_none psort trend

/-- Witness for `C6_topk_amended` on the spec's three-record window. -/
theorem C6_topk_amended_witness :
    ∃ out, topk_per_window (fun {α} => sortLe)
        [⟨"A", "2024-01", 5, 1, 1, 0, 1⟩, ⟨"B", "2024-01", 5, 2, 2, 0, 1⟩,
         ⟨"C", "2024-01", 3, 3, 3, 0, 1⟩] 2 = some out ∧
      (out.filter (fun r => r.window == "2024-01")).length
        = min (2 : Int).toNat
            (([⟨"A", "2024-01", 5, 1, 1, 0, 1⟩, ⟨"B", "2024-01", 5, 2, 2, 0, 1⟩,
               ⟨"C", "2024-01", 3, 3, 3, 0, 1⟩] : List TrendRecord).filter
              (fun r => r.window == "2024-01")).length := by
  obtain ⟨⟨out, h1, h2⟩, -⟩ := C6_topk_amended (fun {α} => sortLe)
    isKeySort_sortLe
    [⟨"A", "2024-01", 5, 1, 1, 0, 1⟩, ⟨"B", "2024-01", 5, 2, 2, 0, 1⟩,
     ⟨"C", "2024-01", 3, 3, 3, 0, 1⟩] 2 (by decide) (by decide)
  exact ⟨out, h1, (h2 "2024-01").1⟩

/-- C10 is false as stated: when every window has at most `|K|`
candidates, `head(K)` with negative `K` empties every group, `out_rows`
is empty, and `sort_values` raises `KeyError` instead of returning
`max(n - |K|, 0)` records per window. -/
theorem C10_counterexample :
    topk_per_window (fun {α} => sortLe)
      [⟨"A", "2024-01", 5, 1, 1, 0, 1⟩, ⟨"B", "2024-01", 3, 2, 2, 0, 1⟩]
      (-3) = none := by
  decide

/-- C10 (amended): for negative `K`, `head(K)` keeps all but the last
`|K|` rows of each window's score-descending order; provided some window
has more than `|K|` candidates, the selector returns a result in which a
window with `n` candidates contributes exactly `n - |K|` (clamped at 0)
records — top-scoring up to implementation-defined tie choice, in
descending order.  When every window has at most `|K|` candidates, the
output row list is empty and `sort_values` raises `KeyError`. -/
theorem C10_negative_k_amended (psort : SortImpl) (hps : IsKeySort psort)
    (trend : List TrendRecord) (k : Int) (hk : k < 0)
    (hex : ∃ r ∈ trend, (-k).toNat
      < (trend.filter (fun x => x.window == r.window)).length) :
    ∃ out, topk_per_window psort trend k = some out ∧
      ∀ w : String,
        (out.filter (fun r => r.window == w)).length
          = (trend.filter (fun r => r.window == w)).length - (-k).toNat ∧
        (out.filter (fun r => r.window == w)).Pairwise
          (fun a b => b.score ≤ a.score) ∧
        (∃ dropped,
          List.Perm (trend.filter (fun r => r.window == w))
            (out.filter (fun r => r.window == w) ++ dropped) ∧
          ∀ r ∈ out.filter (fun r => r.window == w), ∀ r' ∈ dropped,
            r'.score ≤ r.score) := by
  refine ⟨psort canonLe (topkRows psort trend k),
    topk_some psort trend k (topkRows_ne_nil_neg psort hps trend k hk hex),
    ?_⟩
  intro w
  refine ⟨?_, topk_out_filter_sorted psort hps trend k w,
    topk_top_multiset psort hps trend k w⟩
  rw [(topk_out_filter_perm psort hps trend k w).length_eq,
    topkGroup_length psort hps, if_neg (by omega : ¬((0:Int) ≤ k))]
  omega

/-- Witness for `C10_negative_k_amended` with `K = -1`. -/
theorem C10_negative_k_amended_witness :
    ∃ out, topk_per_window (fun {α} => sortLe)
        [⟨"A", "2024-01", 5, 1, 1, 0, 1⟩, ⟨"B", "2024-01", 5, 2, 2, 0, 1⟩,
         ⟨"C", "2024-01", 3, 3, 3, 0, 1⟩] (-1) = some out ∧
      (out.filter (fun r => r.window == "2024-01")).length
        = (([⟨"A", "2024-01", 5, 1, 1, 0, 1⟩, ⟨"B", "2024-01", 5, 2, 2, 0, 1⟩,
             ⟨"C", "2024-01", 3, 3, 3, 0, 1⟩] : List TrendRecord).filter
            (fun r => r.window == "2024-01")).length - ((-(-1) : Int)).toNat := by
  obtain ⟨out, h1, h2⟩ := C10_negative_k_amended (fun {α} => sortLe)
    isKeySort_sortLe
    [⟨"A", "2024-01", 5, 1, 1, 0, 1⟩, ⟨"B", "2024-01", 5, 2, 2, 0, 1⟩,
     ⟨"C", "2024-01", 3, 3, 3, 0, 1⟩] (-1) (by decide) (by decide)
  exact ⟨out, h1, (h2 "2024-01").1⟩

end TrendTracker
